import Mathlib

/-!
Verification of the CKKS logistic-regression training source
(`logistic_regression_ckks.cpp`) against its natural-language specification.

The homomorphic backend (Microsoft SEAL) is idealized: a ciphertext is
modelled by the exact rational values its slots decode to, together with its
`level` (chain index in the modulus chain, a fresh encryption sitting at the
top) and its `scale` attribute.  Rescaling is exact (it divides the scale by
the base `2^40` and leaves decoded values unchanged), so every statement that
the spec makes "within the scheme's approximation error ε" becomes an exact
statement about rationals.  The program fixes `poly_modulus_degree = 16384`,
hence `N = 8192` slots, a coefficient chain `{60,40,40,40,40,40,40,40,60}`
(top data chain index 7) and base scale `2^40`.
-/

/-- Slot count: half the ring degree `POLY_MOD_DEGREE = 16384`. -/
def N : ℕ := 8192

/-- Chain index of a freshly encrypted ciphertext: the coefficient modulus
`{60,40,40,40,40,40,40,40,60}` has 9 primes, the last being the special
prime, so the top data level is 7. -/
def chainTop : ℕ := 7

/-- The configured base scale `2^40`. -/
def baseScale : ℚ := 2 ^ 40

/-- The manual scale renormalization `s = pow(2, (int)log2(s))` used by the
source after rescales (for the scales arising in this program, `s ≥ 1`, where
C truncation and `Int.log` agree). -/
def renorm (s : ℚ) : ℚ := (2 : ℚ) ^ (Int.log 2 s)

/-- An idealized CKKS ciphertext: decoded slot values (only indices `< N` are
meaningful), the chain index `level`, and the `scale` attribute. -/
structure Ct where
  data : ℕ → ℚ
  level : ℕ
  scale : ℚ

instance : Inhabited Ct := ⟨⟨fun _ => 0, 0, 1⟩⟩

/-- An idealized CKKS plaintext.  A decrypted plaintext keeps the ciphertext's
chain position and scale; `Encryptor::encrypt` (CKKS) encrypts at the
plaintext's encryption parameters. -/
structure Pt where
  data : ℕ → ℚ
  level : ℕ
  scale : ℚ

/-- `CKKSEncoder::encode(vector, scale, pt)`: pads the vector with zeros to
`N` slots, at the top of the chain. -/
def encodeVec (v : List ℚ) : ℕ → ℚ := fun s => v.getD s 0

/-- Encode-then-encrypt a plaintext vector: fresh ciphertext at the top of
the chain with the base scale. -/
def encryptVec (v : List ℚ) : Ct :=
  { data := encodeVec v, level := chainTop, scale := baseScale }

/-- `Decryptor::decrypt`: the plaintext keeps the ciphertext's decoded data,
chain position, and scale. -/
def decryptCt (c : Ct) : Pt := { data := c.data, level := c.level, scale := c.scale }

/-- `Encryptor::encrypt` on a plaintext: in CKKS the resulting ciphertext has
the encryption parameters (chain position) and scale of the plaintext. -/
def encryptPt (p : Pt) : Ct := { data := p.data, level := p.level, scale := p.scale }

/-- `Evaluator::rotate_vector(ct, step)` with positive `step`: slot `i` of
the result holds slot `(i + step) mod N` of the input. -/
def rotSlots (c : ℕ → ℚ) (step : ℕ) : ℕ → ℚ := fun i => c ((i + step) % N)

/-- `Evaluator::rotate_vector(ct, -step)` (negative rotation): slot `i` of
the result holds slot `(i - step) mod N` of the input. -/
def rotSlotsNeg (c : ℕ → ℚ) (step : ℕ) : ℕ → ℚ :=
  fun i => c ((i + (N - step % N)) % N)

/-- `Evaluator::add_many`: slot-wise sum of a list of ciphertexts; no level
or scale change (the level/scale are those shared by the operands, here read
off the first one). -/
def addMany (l : List Ct) : Ct :=
  { data := fun s => (l.map (fun c => c.data s)).sum
    level := (l.headD default).level
    scale := (l.headD default).scale }

/-- The inner rotate-and-sum loop of `cipher_dot_product` (source lines
730-734): `k` iterations of `dup = rotate(dup, 1); mult = mult + dup`. -/
def dotIter : ℕ → (ℕ → ℚ) → (ℕ → ℚ) → (ℕ → ℚ) × (ℕ → ℚ)
  | 0, mult, dup => (mult, dup)
  | k + 1, mult, dup =>
      dotIter k (fun i => mult i + rotSlots dup 1 i) (rotSlots dup 1)

/-- `cipher_dot_product(ctA, ctB, size)` (source lines 714-740): slot-wise
multiply + relinearize + rescale, duplicate via a rotation by `-size`, then
`size-1` rotate-by-1-and-add steps, and a manual scale renormalization. -/
def cipher_dot_product (ctA ctB : Ct) (size : ℕ) : Ct :=
  let mult : ℕ → ℚ := fun i => ctA.data i * ctB.data i
  let zero_filled := rotSlotsNeg mult size
  let dup : ℕ → ℚ := fun i => mult i + zero_filled i
  { data := (dotIter (size - 1) mult dup).1
    level := ctA.level - 1
    scale := renorm (ctA.scale * ctB.scale / baseScale) }

/-- The degree-3 sigmoid coefficient table `{0.5, 1.20069, 0.00001,
-0.81562}` (source line 893), as the function `index ↦ coefficient`
(`vector<double> coeffs`, out-of-range reads do not occur). -/
def sigCoeffs3 : ℕ → ℚ :=
  fun j => [(1 : ℚ) / 2, 120069 / 100000, 1 / 100000, -81562 / 100000].getD j 0

/-- One pass of the Horner loop state of `Horner_sigmoid_approx` (source
lines 782-830), iterated from coefficient index `d-1` down to `0`.  The state
is the chain index of (the repeatedly mod-switched) `ctx` together with the
accumulator `temp`.  Each iteration aligns `ctx` and `temp` to the lower of
their levels, multiplies, relinearizes, rescales (one level), sets the scale
manually to `2^40`, and adds the coefficient plaintext. -/
def hornerIter (x c : ℕ → ℚ) : ℕ → ℕ × Ct → ℕ × Ct
  | 0, s => s
  | i + 1, s =>
      let m := min s.1 s.2.level
      hornerIter x c i
        (m, { data := fun t => s.2.data t * x t + c i
              level := m - 1
              scale := baseScale })

/-- `Horner_sigmoid_approx(ctx, degree, coeffs, ...)` (source lines 742-844):
the accumulator starts as a fresh encryption of the top coefficient (encoded
at scale `2^40`, top of the chain), then the Horner loop folds down to
coefficient `0`. -/
def Horner_sigmoid_approx (ctx : Ct) (degree : ℕ) (c : ℕ → ℚ) : Ct :=
  (hornerIter ctx.data c degree
    (ctx.level, { data := fun _ => c degree, level := chainTop, scale := baseScale })).2

/-- The encoded one-hot selection mask `mask_vec` of length `len` with a `1`
at slot `i` (source lines 861-864 and 952-955): the encoder pads with zeros
beyond the vector's length. -/
def maskData (len i : ℕ) : ℕ → ℚ :=
  fun s => if s < len then (if s = i then 1 else 0) else 0

/-- The row-wise linear transform of `predict_cipher_weights` before the
sigmoid (source lines 852-887): per-row dot products, each masked to its row
slot (the mask mod-switched down one level), one `add_many`, then one
relinearize + rescale + manual scale renormalization. -/
def predictLinearTransform (features : List Ct) (weights : Ct) (num_weights : ℕ) : Ct :=
  let num_rows := features.length
  let results := (List.range num_rows).map (fun i =>
    let d := cipher_dot_product (features.getD i default) weights num_weights
    { data := fun s => d.data s * maskData num_rows i s
      level := d.level
      scale := d.scale * baseScale : Ct })
  let lintransf := addMany results
  { data := lintransf.data
    level := lintransf.level - 1
    scale := renorm (lintransf.scale / baseScale) }

/-- `predict_cipher_weights` (source lines 847-912) with `DEGREE = 3`: the
linear transform followed by the Horner sigmoid approximation with the
degree-3 coefficient table. -/
def predict_cipher_weights (features : List Ct) (weights : Ct) (num_weights : ℕ) : Ct :=
  Horner_sigmoid_approx (predictLinearTransform features weights num_weights) 3 sigCoeffs3

/-- `Evaluator::multiply_plain_inplace` on a gradient-loop selection mask
(source lines 952-957): the mask plaintext is freshly encoded at the top of
the chain and — unlike line 866 in the predict loop — never mod-switched, so
SEAL throws a parameter mismatch unless the ciphertext also sits at the top
of the chain. -/
def maskMultiplyPlain (ct : Ct) (mask : ℕ → ℚ) : Except String Ct :=
  if ct.level = chainTop then
    .ok { data := fun s => ct.data s * mask s, level := ct.level, scale := ct.scale * baseScale }
  else .error "encrypted and plain parameter mismatch"

/-- `Evaluator::sub` (source line 991): SEAL requires the two ciphertexts to
share encryption parameters (level) and scale, and throws otherwise; the
source performs no mod-switch on either operand. -/
def subCipher (a b : Ct) : Except String Ct :=
  if a.level = b.level ∧ a.scale = b.scale then
    .ok { data := fun s => a.data s - b.data s, level := a.level, scale := a.scale }
  else .error "encrypted1 and encrypted2 parameter mismatch"

/-- `ckks_encoder.encode(N, N_pt)` at source line 983: `N` is a `double` and
`CKKSEncoder` has no two-argument `(double, Plaintext&)` overload, so the
call resolves to the `int64` overload, truncating the value toward zero
(`trunc(learning_rate / num_observations)`, which is `0` for every
`learning_rate < num_observations`), at unit scale. -/
def encodeInt64 (x : ℚ) : ℚ := ((x.num.tdiv (x.den : ℤ) : ℤ) : ℚ)

/-- `update_weights` (source lines 914-996): predictions, residual (labels
mod-switched to the prediction's level), then the gradient loop.  Each
gradient column is a dot product masked by `maskMultiplyPlain` — which
aborts with an alignment error because the mask is never mod-switched down
to the dot result's level; were that passed, the gradient would be summed,
rescaled, multiplied by the truncated-to-integer step plaintext
(`encodeInt64`), and subtracted from the (still top-level) weights by
`subCipher`, which likewise aborts on the level/scale mismatch.  The
returned value is therefore an `Except`: the source throws inside this
function on the training path. -/
def update_weights (features features_T : List Ct) (labels weights : Ct) (lr : ℚ) :
    Except String Ct := do
  let num_observations := features.length
  let num_weights := features_T.length
  let predictions := predict_cipher_weights features weights num_weights
  let labels2 : Ct := { labels with level := predictions.level }
  let pred_labels : Ct :=
    { data := fun s => predictions.data s - labels2.data s
      level := predictions.level
      scale := predictions.scale }
  let gradient_results ← (List.range num_weights).mapM (fun i => do
    let ft : Ct := { features_T.getD i default with level := pred_labels.level }
    let d := cipher_dot_product ft pred_labels num_observations
    maskMultiplyPlain d (maskData num_weights i))
  let gradient0 := addMany gradient_results
  let gradient : Ct :=
    { data := gradient0.data
      level := gradient0.level - 1
      scale := renorm (gradient0.scale / baseScale) }
  let stepc : ℚ := encodeInt64 (lr / (num_observations : ℚ))
  let gradient2 : Ct :=
    { data := fun s => gradient.data s * stepc
      level := gradient.level
      scale := gradient.scale * 1 }
  let nw ← subCipher gradient2 weights
  pure { nw with data := fun s => -(nw.data s) }

/-- The slot values, level, and scale along `update_weights`' data path
(source lines 914-996) with the two alignment aborts ignored and the
learning-rate plaintext idealized as the exact rational: what the update
WOULD compute if its operands were aligned.  The faithful fallible embedding
is `update_weights` above; this value-level function exists only to drive
the state-passing form of `train_cipher`, whose frame property (which
ciphertexts an iteration can touch) does not depend on the weight values an
iteration produces. -/
def updateWeightsData (features features_T : List Ct) (labels weights : Ct) (lr : ℚ) : Ct :=
  let num_observations := features.length
  let num_weights := features_T.length
  let predictions := predict_cipher_weights features weights num_weights
  let labels2 : Ct := { labels with level := predictions.level }
  let pred_labels : Ct :=
    { data := fun s => predictions.data s - labels2.data s
      level := predictions.level
      scale := predictions.scale }
  let gradient_results := (List.range num_weights).map (fun i =>
    let ft : Ct := { features_T.getD i default with level := pred_labels.level }
    let d := cipher_dot_product ft pred_labels num_observations
    { data := fun s => d.data s * maskData num_weights i s
      level := d.level
      scale := d.scale * baseScale : Ct })
  let gradient0 := addMany gradient_results
  let gradient : Ct :=
    { data := gradient0.data
      level := gradient0.level - 1
      scale := renorm (gradient0.scale / baseScale) }
  let stepc : ℚ := lr / (num_observations : ℚ)
  let gradient2 : Ct :=
    { data := fun s => gradient.data s * stepc
      level := gradient.level
      scale := gradient.scale * 1 }
  let new_weights : Ct :=
    { data := fun s => gradient2.data s - weights.data s
      level := gradient2.level
      scale := gradient2.scale }
  { new_weights with data := fun s => -(new_weights.data s) }

/-- One iteration of `train_cipher` (source lines 1006-1033): a weight
update followed by the decrypt / re-encrypt "refresh" (the decode at line
1016 is used only for console logging; the ciphertext is re-encrypted from
the decrypted plaintext `new_weights_pt`).  The update is taken at its
value level (`updateWeightsData`): the frame property proved about this
loop does not depend on the update's output. -/
def train_iter (features features_T : List Ct) (labels : Ct) (lr : ℚ) (w : Ct) : Ct :=
  encryptPt (decryptCt (updateWeightsData features features_T labels w lr))

/-- The full state a `train_cipher` call closes over: the (by-value) feature
rows, transposed feature rows, labels, and the current weight ciphertext. -/
structure TrainState where
  features : List Ct
  features_T : List Ct
  labels : Ct
  weights : Ct

/-- The loop of `train_cipher` in state-passing form: `update_weights`
receives `features`, `features_T`, `labels`, and `weights` by value (source
line 914), so each iteration reads the caller's unchanged ciphertexts and
replaces only the weight ciphertext. -/
def trainLoop (lr : ℚ) : ℕ → TrainState → TrainState
  | 0, s => s
  | k + 1, s =>
      trainLoop lr k
        { s with weights := train_iter s.features s.features_T s.labels lr s.weights }

/-- `train_cipher` (source lines 998-1036): iterate `train_iter` for the
fixed iteration count and return the final weight ciphertext. -/
def train_cipher (features features_T : List Ct) (labels weights : Ct)
    (lr : ℚ) (iters : ℕ) : Ct :=
  (trainLoop lr iters ⟨features, features_T, labels, weights⟩).weights

/-- `get_diagonal(position, U)` (source lines 178-198): the first loop reads
`U[i][i+position]` for `i < n - position`, the second wraps around reading
`U[i][i+position-n]` for the remaining `position` rows (faithful for
`position ≤ n`, the domain the claims quantify over). -/
def get_diagonal (position : ℕ) (U : List (List ℚ)) : List ℚ :=
  let n := U.length
  ((List.range (n - position)).map fun i => (U.getD i []).getD (i + position) 0)
    ++ ((List.range' (n - position) position).map fun i =>
          (U.getD i []).getD (i + position - n) 0)

/-- One step of the inner split search of `compute_all_powers` (source lines
404-413): given the accumulated `(minlevel, cand)` and a split point `j`,
take `j` if `newlevel = max(levels[j], levels[i-j]) + 1` is strictly
smaller. -/
def splitStep (lv : List ℕ) (i : ℕ) (acc : ℕ × ℤ) (j : ℕ) : ℕ × ℤ :=
  let nl := max (lv.getD j 0) (lv.getD (i - j) 0) + 1
  if nl < acc.1 then (nl, (j : ℤ)) else acc

/-- The inner split search of `compute_all_powers` (source lines 402-413):
fold `j = 1 .. i/2`, starting from `(minlevel, cand) = (i, -1)`. -/
def splitFold (lv : List ℕ) (i : ℕ) : ℕ × ℤ :=
  (List.range' 1 (i / 2)).foldl (splitStep lv i) (i, -1)

/-- The `levels` vector built by `compute_all_powers` for a given degree
(source lines 392-415): entries 0 and 1 are 0, entry `i ≥ 2` is the minimum
split level found by `splitFold`. -/
def levelsTo : ℕ → List ℕ
  | 0 => [0]
  | 1 => [0, 0]
  | n + 2 =>
      let prev := levelsTo (n + 1)
      prev ++ [(splitFold prev (n + 2)).1]

/-- `compute_all_powers`'s level computation with its error branch (source
lines 417-418): if the split search leaves `cand < 0` the function throws
`runtime_error("error")`. -/
def levelsToE : ℕ → Except String (List ℕ)
  | 0 => .ok [0]
  | 1 => .ok [0, 0]
  | n + 2 => do
      let prev ← levelsToE (n + 1)
      let r := splitFold prev (n + 2)
      if r.2 < 0 then .error "error" else .ok (prev ++ [r.1])

/-- The degree-3 sigmoid coefficient table as a plain list, for the
plaintext reference computation. -/
def sigCoeffList : List ℚ := [(1 : ℚ) / 2, 120069 / 100000, 1 / 100000, -81562 / 100000]

/-- Plain polynomial evaluation `p(x) = Σ c_i x^i` for the plaintext
reference. -/
def polyEval (c : List ℚ) (x : ℚ) : ℚ :=
  ∑ j ∈ Finset.range c.length, c.getD j 0 * x ^ j

/-- Modelled from the spec: the plaintext floating-point reference
implementation of one gradient-descent step that claim C1 compares
`update_weights` against (the repository contains no such reference
routine).  Prediction via per-row dot product and the same sigmoid
polynomial, residual = prediction - labels, gradient = features^T ·
residual, newWeights = weights - (learning_rate/numObservations) ·
gradient. -/
def referenceUpdate (rows : List (List ℚ)) (y w : List ℚ) (lr : ℚ) : List ℚ :=
  let m := rows.length
  let preds := rows.map (fun r =>
    polyEval sigCoeffList (∑ k ∈ Finset.range w.length, r.getD k 0 * w.getD k 0))
  (List.range w.length).map (fun j =>
    w.getD j 0 -
      lr / (m : ℚ) *
        ∑ i ∈ Finset.range m, (rows.getD i []).getD j 0 * (preds.getD i 0 - y.getD i 0))

/-! ### Concrete instances used by witnesses and counterexamples -/

def dotA : Ct := encryptVec [1, 2, 3]

def dotB : Ct := encryptVec [4, 5, 6]

/-- The counterexample input for C2 as stated: `1` in slots `0` and `7999`,
zero everywhere else — in particular zero in every slot beyond the first
`size = 8000`. -/
def ceData : ℕ → ℚ := fun i => if i = 0 then 1 else if i = 7999 then 1 else 0

def ceVec : Ct := { data := ceData, level := chainTop, scale := baseScale }

def rowsW : List Ct := [encryptVec [1, 0], encryptVec [0, 1]]

def diagU : List (List ℚ) := [[1, 2, 3], [4, 5, 6], [7, 8, 9]]

def rows2 : List (List ℚ) := [[1, 2], [3, 4]]

def feat2 : List Ct := rows2.map encryptVec

def featT2 : List Ct := [[1, 3], [2, 4]].map encryptVec

/-! ### Helper lemmas -/

lemma listSumRange (n : ℕ) (h : ℕ → ℚ) :
    ((List.range n).map h).sum = ∑ j ∈ Finset.range n, h j := by
  induction n with
  | zero => simp
  | succ n ih =>
      rw [List.range_succ, List.map_append, List.sum_append, Finset.sum_range_succ, ih]
      simp

lemma dotIter_fst (k : ℕ) : ∀ (mult dup : ℕ → ℚ) (i : ℕ),
    (dotIter k mult dup).1 i = mult i + ∑ j ∈ Finset.range k, dup ((i + j + 1) % N) := by
  induction k with
  | zero => intro mult dup i; simp [dotIter]
  | succ k ih =>
      intro mult dup i
      simp only [dotIter]
      rw [ih]
      simp only [rotSlots]
      rw [Finset.sum_range_succ' (fun j => dup ((i + j + 1) % N)) k]
      have hc : ∀ j ∈ Finset.range k,
          dup (((i + j + 1) % N + 1) % N) = dup ((i + (j + 1) + 1) % N) := by
        intro j _
        rw [Nat.mod_add_mod]
        congr 1
      rw [Finset.sum_congr rfl hc, show i + 0 + 1 = i + 1 from by omega]
      ring

lemma sum_mod_shift (f : ℕ → ℚ) (n : ℕ) (hn : 0 < n) :
    ∀ i, ∑ j ∈ Finset.range n, f ((i + j) % n) = ∑ k ∈ Finset.range n, f k := by
  intro i
  induction i with
  | zero =>
      apply Finset.sum_congr rfl
      intro j hj
      rw [Nat.zero_add, Nat.mod_eq_of_lt (Finset.mem_range.mp hj)]
  | succ i ih =>
      rw [← ih]
      obtain ⟨m, rfl⟩ : ∃ m, n = m + 1 := ⟨n - 1, by omega⟩
      rw [Finset.sum_range_succ (fun j => f ((i + 1 + j) % (m + 1))) m]
      rw [Finset.sum_range_succ' (fun j => f ((i + j) % (m + 1))) m]
      congr 1
      · apply Finset.sum_congr rfl
        intro j _
        rw [show i + 1 + j = i + (j + 1) from by omega]
      · rw [show i + 1 + m = i + (m + 1) from by omega, Nat.add_mod_right]
        norm_num

lemma dot_data_correct (A B : Ct) (size i : ℕ)
    (hm : ∀ j, size ≤ j → A.data j * B.data j = 0)
    (hsz : 2 * size ≤ N) (hi : i < size) :
    (cipher_dot_product A B size).data i
      = ∑ k ∈ Finset.range size, A.data k * B.data k := by
  have hN : N = 8192 := rfl
  have hsize1 : 1 ≤ size := by omega
  simp only [cipher_dot_product]
  rw [dotIter_fst]
  simp only [rotSlotsNeg]
  have hstep : ∀ j ∈ Finset.range (size - 1),
      (A.data ((i + j + 1) % N) * B.data ((i + j + 1) % N) +
        A.data (((i + j + 1) % N + (N - size % N)) % N) *
          B.data (((i + j + 1) % N + (N - size % N)) % N))
        = A.data ((i + j + 1) % size) * B.data ((i + j + 1) % size) := by
    intro j hj
    have hjlt : j < size - 1 := Finset.mem_range.mp hj
    set t := i + j + 1 with ht
    have htlo : 1 ≤ t := by omega
    have hthi : t ≤ 2 * size - 2 := by omega
    have htN : t % N = t := by rw [hN] at hsz ⊢; omega
    rw [htN]
    rcases lt_or_le t size with hcase | hcase
    · -- t < size : the first term survives, the wrapped index lands in the zero pad
      have h2 : (t + (N - size % N)) % N = t + (N - size) := by
        rw [hN] at hsz ⊢; omega
      have h3 : size ≤ t + (N - size) := by rw [hN] at hsz ⊢; omega
      rw [h2, hm _ h3, Nat.mod_eq_of_lt hcase]
      ring
    · -- size ≤ t : the first term is in the zero pad, the wrapped term survives
      have h2 : (t + (N - size % N)) % N = t - size := by
        rw [hN] at hsz ⊢; omega
      have h4 : t % size = t - size := by
        rw [Nat.mod_eq_sub_mod hcase, Nat.mod_eq_of_lt (by omega)]
      rw [h2, hm _ hcase, h4]
      ring
  rw [Finset.sum_congr rfl hstep]
  obtain ⟨p, rfl⟩ : ∃ p, size = p + 1 := ⟨size - 1, by omega⟩
  have hfold :
      (∑ k ∈ Finset.range (p + 1),
          A.data ((i + k) % (p + 1)) * B.data ((i + k) % (p + 1)))
        = A.data i * B.data i +
            ∑ j ∈ Finset.range (p + 1 - 1),
              A.data ((i + j + 1) % (p + 1)) * B.data ((i + j + 1) % (p + 1)) := by
    rw [Finset.sum_range_succ'
      (fun k => A.data ((i + k) % (p + 1)) * B.data ((i + k) % (p + 1))) p]
    have h0 : (i + 0) % (p + 1) = i := by rw [Nat.add_zero, Nat.mod_eq_of_lt hi]
    rw [h0]
    have hc : ∀ j ∈ Finset.range p,
        A.data ((i + (j + 1)) % (p + 1)) * B.data ((i + (j + 1)) % (p + 1))
          = A.data ((i + j + 1) % (p + 1)) * B.data ((i + j + 1) % (p + 1)) := by
      intro j _
      rw [show i + (j + 1) = i + j + 1 from by omega]
    rw [Finset.sum_congr rfl hc]
    simp [add_comm]
  rw [← sum_mod_shift (fun k => A.data k * B.data k) (p + 1) (by omega) i, hfold]

lemma hornerIter_data (x c : ℕ → ℚ) : ∀ (d xl : ℕ) (T : Ct) (t : ℕ),
    (hornerIter x c d (xl, T)).2.data t
      = T.data t * x t ^ d + ∑ j ∈ Finset.range d, c j * x t ^ j := by
  intro d
  induction d with
  | zero => intro xl T t; simp [hornerIter]
  | succ d ih =>
      intro xl T t
      simp only [hornerIter]
      rw [ih]
      simp only [Finset.sum_range_succ]
      ring

lemma hornerIter_level (x c : ℕ → ℚ) : ∀ (d xl : ℕ) (T : Ct),
    1 ≤ d → d ≤ min xl T.level →
    (hornerIter x c d (xl, T)).2.level = min xl T.level - d := by
  intro d
  induction d with
  | zero => intro xl T h1 _; omega
  | succ d ih =>
      intro xl T _ hle
      simp only [hornerIter]
      rcases Nat.eq_zero_or_pos d with hd | hd
      · subst hd
        simp only [hornerIter]
      · rw [ih (min xl T.level) _ (by omega) (by simp; omega)]
        simp
        omega

lemma encodeVec_zero (v : List ℚ) (s : ℕ) (h : v.length ≤ s) : encodeVec v s = 0 := by
  unfold encodeVec
  rw [List.getD_eq_default]
  omega

lemma predictLinearTransform_data (features : List Ct) (weights : Ct)
    (num_weights i : ℕ) (hi : i < features.length) :
    (predictLinearTransform features weights num_weights).data i
      = (cipher_dot_product (features.getD i default) weights num_weights).data i := by
  show ((((List.range features.length).map _).map _).sum : ℚ) = _
  rw [List.map_map, listSumRange]
  have hstep : ∀ j ∈ Finset.range features.length,
      ((cipher_dot_product (features.getD j default) weights num_weights).data i *
          maskData features.length j i)
        = if j = i
            then (cipher_dot_product (features.getD j default) weights num_weights).data i
            else 0 := by
    intro j _
    unfold maskData
    rw [if_pos hi]
    rcases Nat.decEq j i with h | h
    · rw [if_neg h, if_neg (fun hh => h hh.symm), mul_zero]
    · subst h; rw [if_pos rfl, if_pos rfl, mul_one]
  calc (((List.range features.length).map fun j =>
          (cipher_dot_product (features.getD j default) weights num_weights).data i *
            maskData features.length j i)).sum
      = ∑ j ∈ Finset.range features.length,
          (cipher_dot_product (features.getD j default) weights num_weights).data i *
            maskData features.length j i := listSumRange _ _
    _ = _ := by
        rw [Finset.sum_congr rfl hstep, Finset.sum_ite_eq' (Finset.range features.length) i]
        rw [if_pos (Finset.mem_range.mpr hi)]

/-! ### Lemmas about the `compute_all_powers` level dynamic program -/

lemma splitStep_fst_le (lv : List ℕ) (i : ℕ) :
    ∀ (l : List ℕ) (acc : ℕ × ℤ), (l.foldl (splitStep lv i) acc).1 ≤ acc.1 := by
  intro l
  induction l with
  | nil => intro acc; simp
  | cons j l ih =>
      intro acc
      rw [List.foldl_cons]
      refine le_trans (ih _) ?_
      simp only [splitStep]
      split
      · next h => simpa using le_of_lt h
      · exact le_refl _

lemma splitStep_fst_le_cand (lv : List ℕ) (i : ℕ) :
    ∀ (l : List ℕ) (acc : ℕ × ℤ) (j : ℕ), j ∈ l →
      (l.foldl (splitStep lv i) acc).1 ≤ max (lv.getD j 0) (lv.getD (i - j) 0) + 1 := by
  intro l
  induction l with
  | nil => intro acc j hj; simp at hj
  | cons a l ih =>
      intro acc j hj
      rw [List.foldl_cons]
      rcases List.mem_cons.mp hj with h | h
      · subst h
        refine le_trans (splitStep_fst_le lv i l _) ?_
        simp only [splitStep]
        split
        · simp
        · next h => simp only [le_of_not_lt h]
      · exact ih _ j h

lemma splitStep_fst_ge (lv : List ℕ) (i : ℕ) (B : ℕ) :
    ∀ (l : List ℕ) (acc : ℕ × ℤ), B ≤ acc.1 →
      (∀ j ∈ l, B ≤ max (lv.getD j 0) (lv.getD (i - j) 0) + 1) →
      B ≤ (l.foldl (splitStep lv i) acc).1 := by
  intro l
  induction l with
  | nil => intro acc h _; simpa using h
  | cons a l ih =>
      intro acc hacc hall
      rw [List.foldl_cons]
      refine ih _ ?_ (fun j hj => hall j (List.mem_cons_of_mem a hj))
      simp only [splitStep]
      split
      · simpa using hall a (List.mem_cons_self a l)
      · exact hacc

lemma splitStep_cand_nonneg (lv : List ℕ) (i : ℕ) :
    ∀ (l : List ℕ) (acc : ℕ × ℤ), 0 ≤ acc.2 →
      0 ≤ (l.foldl (splitStep lv i) acc).2 := by
  intro l
  induction l with
  | nil => intro acc h; simpa using h
  | cons a l ih =>
      intro acc hacc
      rw [List.foldl_cons]
      refine ih _ ?_
      simp only [splitStep]
      split
      · simp
      · exact hacc

lemma clog2_le_sub_one : ∀ n, 1 ≤ n → Nat.clog 2 n ≤ n - 1 := by
  intro n
  induction n using Nat.strong_induction_on with
  | _ n ih =>
      intro h1
      rcases Nat.lt_or_ge n 2 with h2 | h2
      · have : n = 1 := by omega
        subst this
        simp [Nat.clog_one_right]
      · rw [Nat.clog_of_two_le (by norm_num) h2]
        have hm : (n + 2 - 1) / 2 < n := by omega
        have hm1 : 1 ≤ (n + 2 - 1) / 2 := by omega
        have := ih _ hm hm1
        omega

/-- Under the inductive hypothesis that `lv` holds the ceiling-log levels up
to index `n + 1`, the split search for `i = n + 2` returns exactly
`⌈log2 i⌉`. -/
lemma splitFold_fst_eq_clog (lv : List ℕ) (n : ℕ)
    (hlv : ∀ j, j ≤ n + 1 → lv.getD j 0 = Nat.clog 2 j) :
    (splitFold lv (n + 2)).1 = Nat.clog 2 (n + 2) := by
  set i := n + 2 with hi
  have hge2 : 2 ≤ i := by omega
  have hrec : Nat.clog 2 i = Nat.clog 2 ((i + 1) / 2) + 1 := by
    rw [Nat.clog_of_two_le (by norm_num) hge2]
    norm_num
  have hhalf : i - i / 2 = (i + 1) / 2 := by omega
  apply le_antisymm
  · -- the candidate j = i / 2 yields exactly clog 2 i
    have hmem : i / 2 ∈ List.range' 1 (i / 2) :=
      List.mem_range'_1.mpr (by omega)
    refine le_trans (splitStep_fst_le_cand lv i _ _ _ hmem) ?_
    rw [hlv (i / 2) (by omega), hlv (i - i / 2) (by omega)]
    have hmax : max (Nat.clog 2 (i / 2)) (Nat.clog 2 (i - i / 2))
        = Nat.clog 2 (i - i / 2) :=
      max_eq_right (Nat.clog_mono_right 2 (by omega))
    rw [hmax, hhalf, ← hrec]
  · -- every candidate is at least clog 2 i, and so is the initial bound i
    refine splitStep_fst_ge lv i _ _ _ ?_ ?_
    · have h := clog2_le_sub_one i (by omega)
      show Nat.clog 2 i ≤ i
      omega
    · intro j hj
      have hjb := List.mem_range'_1.mp hj
      have hge : Nat.clog 2 ((i + 1) / 2) ≤ lv.getD (i - j) 0 := by
        rw [hlv (i - j) (by omega)]
        exact Nat.clog_mono_right 2 (by omega)
      have hmx : lv.getD (i - j) 0 ≤ max (lv.getD j 0) (lv.getD (i - j) 0) :=
        le_max_right _ _
      omega

/-- Under the same inductive hypothesis, the split search always records a
candidate: the very first split `j = 1` already beats the initial bound
`i`. -/
lemma splitFold_cand_nonneg (lv : List ℕ) (n : ℕ)
    (hlv : ∀ j, j ≤ n + 1 → lv.getD j 0 = Nat.clog 2 j) :
    0 ≤ (splitFold lv (n + 2)).2 := by
  set i := n + 2 with hi
  obtain ⟨p, hp⟩ : ∃ p, i / 2 = p + 1 := ⟨i / 2 - 1, by omega⟩
  have hcond : max (lv.getD 1 0) (lv.getD (i - 1) 0) + 1 < i := by
    rw [hlv 1 (by omega), hlv (i - 1) (by omega)]
    have h1 : Nat.clog 2 1 = 0 := Nat.clog_one_right 2
    have h2 : Nat.clog 2 (i - 1) ≤ i - 2 := by
      have := clog2_le_sub_one (i - 1) (by omega)
      omega
    omega
  have hfirst : splitStep lv i (i, -1) 1 =
      (max (lv.getD 1 0) (lv.getD (i - 1) 0) + 1, (1 : ℤ)) := by
    simp only [splitStep]
    rw [if_pos hcond]
    norm_num
  unfold splitFold
  rw [hp, List.range', List.foldl_cons, hfirst]
  exact splitStep_cand_nonneg lv i _ _ (by norm_num)

lemma levelsTo_length : ∀ n, (levelsTo n).length = n + 1 := by
  intro n
  induction n with
  | zero => rfl
  | succ n ih =>
      rcases n with _ | m
      · rfl
      · show (levelsTo (m + 1) ++ [(splitFold (levelsTo (m + 1)) (m + 2)).1]).length = m + 3
        rw [List.length_append, ih]
        rfl

lemma levelsTo_getD_clog : ∀ n i, i ≤ n → (levelsTo n).getD i 0 = Nat.clog 2 i := by
  intro n
  induction n with
  | zero =>
      intro i hi
      have : i = 0 := by omega
      subst this
      simp [levelsTo]
  | succ n ih =>
      intro i hi
      rcases n with _ | m
      · -- levelsTo 1 = [0, 0]
        have hcases : i = 0 ∨ i = 1 := by omega
        rcases hcases with rfl | rfl <;> simp [levelsTo]
      · show (levelsTo (m + 1) ++ [(splitFold (levelsTo (m + 1)) (m + 2)).1]).getD i 0 = _
        rcases Nat.lt_or_ge i (m + 2) with hlt | hge
        · rw [List.getD_append _ _ _ _ (by rw [levelsTo_length]; omega)]
          exact ih i (by omega)
        · have hieq : i = m + 2 := by omega
          subst hieq
          rw [List.getD_append_right _ _ _ _ (by rw [levelsTo_length])]
          rw [levelsTo_length]
          simp only [Nat.sub_self, List.getD_cons_zero]
          exact splitFold_fst_eq_clog _ m (fun j hj => ih j hj)

lemma levelsToE_ok : ∀ n, levelsToE n = Except.ok (levelsTo n) := by
  intro n
  induction n with
  | zero => rfl
  | succ n ih =>
      rcases n with _ | m
      · rfl
      · show (do
            let prev ← levelsToE (m + 1)
            let r := splitFold prev (m + 2)
            if r.2 < 0 then Except.error "error" else Except.ok (prev ++ [r.1]))
          = Except.ok (levelsTo (m + 2))
        rw [ih]
        have hc := splitFold_cand_nonneg (levelsTo (m + 1)) m
          (fun j hj => levelsTo_getD_clog (m + 1) j hj)
        simp only [bind, Except.bind]
        rw [if_neg (by omega)]
        rfl

lemma getD_map_range (f : ℕ → ℚ) (m i : ℕ) (h : i < m) :
    ((List.range m).map f).getD i 0 = f i := by
  rw [List.getD_eq_getElem?_getD, List.getElem?_map, List.getElem?_range h]
  rfl

lemma getD_map_range' (f : ℕ → ℚ) (s c i : ℕ) (h : i < c) :
    ((List.range' s c).map f).getD i 0 = f (s + i) := by
  rw [List.getD_eq_getElem?_getD, List.getElem?_map, List.getElem?_range']
  · simp
  · exact h

/-- Slot `i` of `cipher_dot_product`, fully unfolded: the slot-wise product
plus the `size-1` accumulated rotations of the duplicated vector. -/
lemma dot_data_eval (A B : Ct) (size i : ℕ) :
    (cipher_dot_product A B size).data i
      = A.data i * B.data i +
        ∑ j ∈ Finset.range (size - 1),
          (A.data ((i + j + 1) % N) * B.data ((i + j + 1) % N) +
            A.data (((i + j + 1) % N + (N - size % N)) % N) *
              B.data (((i + j + 1) % N + (N - size % N)) % N)) := by
  simp only [cipher_dot_product]
  rw [dotIter_fst]
  simp only [rotSlotsNeg]

/-! ### Claim theorems -/

/-- C2 (amended): for input ciphertexts whose slots beyond the first `size`
are zero, and provided the duplicated copy does not wrap into the live
region (`2*size ≤ N`), every one of the first `size` slots of
`cipher_dot_product` holds the inner product `Σ a_k·b_k`. -/
theorem c2_dot_product_slots (A B : Ct) (size i : ℕ)
    (hA : ∀ j, size ≤ j → A.data j = 0) (_hB : ∀ j, size ≤ j → B.data j = 0)
    (hsz : 2 * size ≤ N) (hi : i < size) :
    (cipher_dot_product A B size).data i
      = ∑ k ∈ Finset.range size, A.data k * B.data k :=
  dot_data_correct A B size i (fun j hj => by rw [hA j hj, zero_mul]) hsz hi

/-- Witness for C2: `dot([1,2,3], [4,5,6], 3)` holds `32` in each of its
first three slots. -/
theorem c2_witness :
    (cipher_dot_product dotA dotB 3).data 0 = 32
    ∧ (cipher_dot_product dotA dotB 3).data 1 = 32
    ∧ (cipher_dot_product dotA dotB 3).data 2 = 32 := by
  have hA : ∀ j, 3 ≤ j → dotA.data j = 0 := fun j hj => encodeVec_zero [1, 2, 3] j hj
  have hB : ∀ j, 3 ≤ j → dotB.data j = 0 := fun j hj => encodeVec_zero [4, 5, 6] j hj
  have hsum : ∑ k ∈ Finset.range 3, dotA.data k * dotB.data k = 32 := by
    norm_num [dotA, dotB, encryptVec, encodeVec, Finset.sum_range_succ]
  refine ⟨?_, ?_, ?_⟩
  · exact (c2_dot_product_slots dotA dotB 3 0 hA hB (by decide) (by decide)).trans hsum
  · exact (c2_dot_product_slots dotA dotB 3 1 hA hB (by decide) (by decide)).trans hsum
  · exact (c2_dot_product_slots dotA dotB 3 2 hA hB (by decide) (by decide)).trans hsum

/-- Counterexample to C2 as stated: with `size = 8000` (slots beyond `8000`
all zero, but `2*size > N = 8192`), slot `0` of the dot product is `3`, not
the inner product `2` — the rotation by `-size` wraps the duplicate into the
live region. -/
theorem c2_counterexample :
    (cipher_dot_product ceVec ceVec 8000).data 0
      ≠ ∑ k ∈ Finset.range 8000, ceVec.data k * ceVec.data k := by
  have hL : (cipher_dot_product ceVec ceVec 8000).data 0 = 3 := by
    rw [dot_data_eval]
    have hstep : ∀ j ∈ Finset.range (8000 - 1),
        (ceVec.data ((0 + j + 1) % N) * ceVec.data ((0 + j + 1) % N) +
          ceVec.data (((0 + j + 1) % N + (N - 8000 % N)) % N) *
            ceVec.data (((0 + j + 1) % N + (N - 8000 % N)) % N))
          = (if j = 7998 then (1 : ℚ) else 0) + (if j = 7806 then (1 : ℚ) else 0) := by
      intro j hj
      have hjb : j < 7999 := by simpa using Finset.mem_range.mp hj
      have e1 : (0 + j + 1) % N = j + 1 := by simp only [N]; omega
      rw [e1]
      have e2 : (j + 1 + (N - 8000 % N)) % N = j + 193 := by
        simp only [N]; omega
      rw [e2]
      show ceData (j + 1) * ceData (j + 1) + ceData (j + 193) * ceData (j + 193) = _
      rcases eq_or_ne j 7998 with rfl | h1
      · norm_num [ceData]
      · rcases eq_or_ne j 7806 with rfl | h2
        · norm_num [ceData]
        · simp only [ceData, if_neg (show j + 1 ≠ 0 by omega),
            if_neg (show j + 1 ≠ 7999 by omega), if_neg (show j + 193 ≠ 0 by omega),
            if_neg (show j + 193 ≠ 7999 by omega), if_neg h1, if_neg h2]
          norm_num
    rw [Finset.sum_congr rfl hstep, Finset.sum_add_distrib,
      Finset.sum_ite_eq' (Finset.range (8000 - 1)) 7998 (fun _ => (1 : ℚ)),
      Finset.sum_ite_eq' (Finset.range (8000 - 1)) 7806 (fun _ => (1 : ℚ)),
      if_pos (Finset.mem_range.mpr (by norm_num)),
      if_pos (Finset.mem_range.mpr (by norm_num))]
    show ceData 0 * ceData 0 + (1 + 1) = 3
    unfold ceData
    norm_num
  have hR : ∑ k ∈ Finset.range 8000, ceVec.data k * ceVec.data k = 2 := by
    have hstep : ∀ k ∈ Finset.range 8000,
        ceVec.data k * ceVec.data k
          = (if k = 0 then (1 : ℚ) else 0) + (if k = 7999 then (1 : ℚ) else 0) := by
      intro k _
      show ceData k * ceData k = _
      rcases eq_or_ne k 0 with rfl | h1
      · norm_num [ceData]
      · rcases eq_or_ne k 7999 with rfl | h2
        · norm_num [ceData]
        · simp only [ceData, if_neg h1, if_neg h2]
          norm_num
    rw [Finset.sum_congr rfl hstep, Finset.sum_add_distrib,
      Finset.sum_ite_eq' (Finset.range 8000) 0 (fun _ => (1 : ℚ)),
      Finset.sum_ite_eq' (Finset.range 8000) 7999 (fun _ => (1 : ℚ)),
      if_pos (Finset.mem_range.mpr (by norm_num)),
      if_pos (Finset.mem_range.mpr (by norm_num))]
    norm_num
  rw [hL, hR]
  norm_num

/-- C3: for every feature-row list with `len(rows) ≤ N` and every row index
`i < len(rows)`, slot `i` of the pre-sigmoid linear transform inside
`predict_cipher_weights` equals slot `i` of the dot-product ciphertext
`cipher_dot_product(rows[i], vec, num_weights)`: each row's dot result is
masked to slot `i` and the masked results are summed by one `add_many`
followed by one relinearize+rescale pass. -/
theorem c3_linear_transform (features : List Ct) (weights : Ct) (num_weights i : ℕ)
    (_hlen : features.length ≤ N) (hi : i < features.length) :
    (predictLinearTransform features weights num_weights).data i
      = (cipher_dot_product (features.getD i default) weights num_weights).data i :=
  predictLinearTransform_data features weights num_weights i hi

/-- Witness for C3 at a concrete two-row instance. -/
theorem c3_witness :
    (predictLinearTransform rowsW (encryptVec [2, 5]) 2).data 1
      = (cipher_dot_product (rowsW.getD 1 default) (encryptVec [2, 5]) 2).data 1 :=
  c3_linear_transform rowsW (encryptVec [2, 5]) 2 1 (by decide) (by decide)

/-- C4: `Horner_sigmoid_approx` computes `p(x) = Σ c_i x^i` in every slot
(exactly, in the idealized scheme), and the degree-3 sigmoid table at
`x = 0.1` evaluates to `0.61925348 ≈ 0.619253`. -/
theorem c4_horner_polynomial :
    (∀ (ctx : Ct) (d : ℕ) (c : ℕ → ℚ) (s : ℕ),
        (Horner_sigmoid_approx ctx d c).data s
          = ∑ j ∈ Finset.range (d + 1), c j * ctx.data s ^ j)
    ∧ (Horner_sigmoid_approx ⟨fun _ => 1 / 10, chainTop, baseScale⟩
          3 sigCoeffs3).data 0 = 61925348 / 100000000 := by
  constructor
  · intro ctx d c s
    unfold Horner_sigmoid_approx
    rw [hornerIter_data]
    show c d * ctx.data s ^ d + ∑ j ∈ Finset.range d, c j * ctx.data s ^ j = _
    rw [Finset.sum_range_succ]
    ring
  · norm_num [Horner_sigmoid_approx, hornerIter, sigCoeffs3]

/-- C5 (amended): for `d ≥ 1` the Horner loop performs exactly one
rescale-to-next per coefficient index, so it consumes exactly `d` levels
below the lower of the input's level and the fresh accumulator's top level:
the result sits at `min(level(ctx), chainTop) - d`.  (As originally stated —
`d` below the fresh accumulator — the claim holds only when the input enters
at the top of the chain.) -/
theorem c5_horner_levels (ctx : Ct) (d : ℕ) (c : ℕ → ℚ)
    (h1 : 1 ≤ d) (h2 : d ≤ min ctx.level chainTop) :
    (Horner_sigmoid_approx ctx d c).level = min ctx.level chainTop - d := by
  unfold Horner_sigmoid_approx
  exact hornerIter_level ctx.data c d ctx.level _ h1 h2

/-- Witness for C5: a degree-3 evaluation on an input at the top of the
chain lands exactly 3 levels down, at level 4. -/
theorem c5_witness :
    (Horner_sigmoid_approx ⟨fun _ => 0, 7, baseScale⟩ 3 sigCoeffs3).level = 4 :=
  (c5_horner_levels ⟨fun _ => 0, 7, baseScale⟩ 3 sigCoeffs3
    (by norm_num) (by decide)).trans (by decide)

/-- Counterexample to C5 as stated: on the training path the input enters
the sigmoid at level 5 (not the top), and the degree-3 result lands at
level 2, not `chainTop - 3 = 4` levels below the freshly encrypted top
coefficient accumulator. -/
theorem c5_counterexample :
    (Horner_sigmoid_approx ⟨fun _ => 0, 5, baseScale⟩ 3 sigCoeffs3).level
      ≠ chainTop - 3 := by decide

/-- C6: for every degree `d ≥ 2`, the `compute_all_powers` dynamic program
assigns `x^d` the multiplicative level exactly `⌈log2 d⌉`, and for `d > 2`
this does not exceed the `d - 1` levels of Horner-style repeated
multiplication. -/
theorem c6_power_tree_depth (d : ℕ) (_hd : 2 ≤ d) :
    (levelsTo d).getD d 0 = Nat.clog 2 d ∧ (2 < d → Nat.clog 2 d ≤ d - 1) :=
  ⟨levelsTo_getD_clog d d le_rfl, fun _ => clog2_le_sub_one d (by omega)⟩

/-- Witness for C6 at `d = 8`: level `⌈log2 8⌉ = 3 ≤ 7`. -/
theorem c6_witness :
    (levelsTo 8).getD 8 0 = Nat.clog 2 8 ∧ Nat.clog 2 8 ≤ 8 - 1 :=
  ⟨(c6_power_tree_depth 8 (by norm_num)).1,
    (c6_power_tree_depth 8 (by norm_num)).2 (by norm_num)⟩

/-- C9: the `runtime_error` branch of `compute_all_powers` is unreachable:
for every degree the level computation with the error branch returns
`Except.ok`, never the error, because for each `i ≥ 2` the split `j = 1`
already produces a `newlevel` strictly below the initial bound `i` and so a
candidate is always recorded. -/
theorem c9_no_error : ∀ d, levelsToE d = Except.ok (levelsTo d) :=
  levelsToE_ok

/-- C8: for an `n×n` matrix and `p < n`, `get_diagonal(p, M)` has length `n`
and its entry `i` is `M[i][(i+p) mod n]`. -/
theorem c8_get_diagonal (U : List (List ℚ)) (p i : ℕ)
    (_hsq : ∀ r ∈ U, r.length = U.length) (hp : p < U.length) (hi : i < U.length) :
    (get_diagonal p U).length = U.length ∧
    (get_diagonal p U).getD i 0 = (U.getD i []).getD ((i + p) % U.length) 0 := by
  constructor
  · unfold get_diagonal
    rw [List.length_append, List.length_map, List.length_map, List.length_range,
      List.length_range']
    omega
  · unfold get_diagonal
    rcases Nat.lt_or_ge i (U.length - p) with hlt | hge
    · rw [List.getD_append _ _ _ _ (by rw [List.length_map, List.length_range]; omega)]
      rw [getD_map_range _ _ _ hlt]
      rw [Nat.mod_eq_of_lt (show i + p < U.length by omega)]
    · rw [List.getD_append_right _ _ _ _
        (by rw [List.length_map, List.length_range]; omega)]
      rw [List.length_map, List.length_range]
      rw [getD_map_range' _ _ _ _ (by omega)]
      rw [show U.length - p + (i - (U.length - p)) = i from by omega]
      have hmod : (i + p) % U.length = i + p - U.length := by
        rw [Nat.mod_eq_sub_mod (by omega), Nat.mod_eq_of_lt (by omega)]
      rw [hmod]

/-- Witness for C8: the offset-1 diagonal of a 3×3 matrix has length 3 and
wraps at row 2 to `M[2][0] = 7`. -/
theorem c8_witness :
    (get_diagonal 1 diagU).length = 3 ∧ (get_diagonal 1 diagU).getD 2 0 = 7 := by
  have h := c8_get_diagonal diagU 1 2 (by decide) (by norm_num [diagU])
    (by norm_num [diagU])
  exact ⟨h.1.trans (by norm_num [diagU]), h.2.trans (by norm_num [diagU])⟩

/-- C1: the encrypted update cannot reproduce the plaintext reference
gradient-descent step because `update_weights` aborts on the training path:
in the gradient loop the selection mask plaintext is freshly encoded at the
top of the chain and never mod-switched down to the dot result's level
(source lines 952-957 — contrast line 866 in the predict loop, which does
switch its mask), so `multiply_plain` raises a parameter mismatch on the
very first column.  On a concrete instance of the claim's setting (2
observations × 2 features, weights `[1, -1]`, labels `[0, 1]`, learning
rate `0.1`) the call returns that alignment error instead of a weight
vector; had it been aligned, `encodeInt64` (the int64 overload taken by
`encode(N, N_pt)` at line 983) would make the step multiplier `0` and
`subCipher` at line 991 would still abort on the level/scale mismatch. -/
theorem c1_update_weights_aborts :
    update_weights feat2 featT2 (encryptVec [0, 1]) (encryptVec [1, -1]) (1 / 10)
      = Except.error "encrypted and plain parameter mismatch" := rfl

/-- C7, behavior at the code: the "refresh" (source lines 1012-1032)
decrypts the updated weights into `new_weights_pt`, decodes only for console
logging, and re-encrypts `new_weights_pt` itself; CKKS encryption takes
place at the plaintext's own encryption parameters and scale, so the
refresh is the identity on (data, level, scale) — it preserves whatever
level and scale the weight ciphertext had entering it, instead of resetting
them.  Concretely, a weight plaintext entering the refresh at level 0 with
scale `2^80` leaves it at level 0 (not the top of the chain, 7) with scale
`2^80` (not `baseScale`).  (In the source as written no weights ever reach
the refresh, because `update_weights` aborts first — see C1.) -/
theorem c7_refresh_behavior :
    (∀ w : Ct, encryptPt (decryptCt w) = w)
    ∧ (encryptPt (decryptCt ⟨fun _ => 0, 0, 2 ^ 80⟩)).level ≠ chainTop
    ∧ (encryptPt (decryptCt ⟨fun _ => 0, 0, 2 ^ 80⟩)).scale ≠ baseScale := by
  refine ⟨fun w => rfl, by decide, ?_⟩
  show (2 : ℚ) ^ 80 ≠ 2 ^ 40
  norm_num

/-- C10: `update_weights` takes the feature, transposed-feature, label, and
weight ciphertexts by value (source line 914), so across every iteration of
the training loop the features, transposed features, and labels entering
the iteration are the very ciphertexts supplied at the start — identical
payload, level, and scale; the weight ciphertext is the only component of
the training state that is replaced. -/
theorem c10_train_frame (lr : ℚ) : ∀ (k : ℕ) (s : TrainState),
    (trainLoop lr k s).features = s.features
    ∧ (trainLoop lr k s).features_T = s.features_T
    ∧ (trainLoop lr k s).labels = s.labels := by
  intro k
  induction k with
  | zero => intro s; exact ⟨rfl, rfl, rfl⟩
  | succ k ih =>
      intro s
      simp only [trainLoop]
      exact ih _
